import Mathlib

/-!
Verification of the todui editing core (src/main.rs): the item model, the
markdown codec, the word-wrap layout routine and the interaction state
machine.  Strings are modeled as lists of unicode characters; byte-based
operations of the source (len, slicing) are modeled through the utf8 size
of each character.  A Rust panic (out-of-bounds index, slicing inside a
multi-byte character) is modeled by an Option result being none.
-/

/-- Sum of the utf8 encoding sizes of the characters: the Rust byte length
of the string (String::len). -/
def utf8Len (l : List Char) : Nat := (l.map Char.utf8Size).sum

/-- The Unicode White_Space property, as used by Rust char::is_whitespace. -/
def isRustWhitespace (c : Char) : Bool :=
  let n := c.toNat
  (9 ≤ n && n ≤ 13) || n == 32 || n == 0x85 || n == 0xA0 || n == 0x1680 ||
  (0x2000 ≤ n && n ≤ 0x200A) || n == 0x2028 || n == 0x2029 || n == 0x202F ||
  n == 0x205F || n == 0x3000

/-- Rust str::starts_with for a literal pattern. -/
def listStartsWith : List Char → List Char → Bool
  | _, [] => true
  | [], _ :: _ => false
  | c :: cs, p :: ps => if c = p then listStartsWith cs ps else false

/-- Rust str::trim_start. -/
def rustTrimStart (l : List Char) : List Char := l.dropWhile isRustWhitespace

/-- Rust str::trim (both ends). -/
def rustTrim (l : List Char) : List Char :=
  ((l.dropWhile isRustWhitespace).reverse.dropWhile isRustWhitespace).reverse

/-- Split at every newline character; returns one more piece than there are
newlines, so the result is never empty. -/
def splitOnNl : List Char → List (List Char)
  | [] => [[]]
  | c :: cs =>
    if c = '\n' then [] :: splitOnNl cs
    else
      match splitOnNl cs with
      | [] => [[c]]
      | p :: ps => (c :: p) :: ps

/-- Remove one trailing carriage return, if present. -/
def stripCr (l : List Char) : List Char :=
  if l.getLast? = some '\r' then l.dropLast else l

/-- Rust str::lines: pieces that were terminated by a newline lose a
trailing carriage return; a final unterminated piece is kept as is, and a
final empty piece (the string ended with a newline) is dropped. -/
def rustLines (s : List Char) : List (List Char) :=
  let ps := splitOnNl s
  let lastPiece := (ps.getLast?).getD []
  if lastPiece.isEmpty then ps.dropLast.map stripCr
  else ps.dropLast.map stripCr ++ [lastPiece]

/-- Worker for rustSplitWhitespace, carrying the reversed current word. -/
def splitWsGo : List Char → List Char → List (List Char)
  | [], cur => if cur.isEmpty then [] else [cur.reverse]
  | c :: cs, cur =>
    if isRustWhitespace c then
      if cur.isEmpty then splitWsGo cs [] else cur.reverse :: splitWsGo cs []
    else splitWsGo cs (c :: cur)

/-- Rust str::split_whitespace: maximal runs of non-whitespace characters;
never yields an empty word. -/
def rustSplitWhitespace (s : List Char) : List (List Char) := splitWsGo s []

/-- Rust str::repeat. -/
def listRepeat (l : List Char) : Nat → List Char
  | 0 => []
  | k + 1 => l ++ listRepeat l k

/-- Value of a most-significant-first list of ascii digit characters, the
accumulation performed by chrono scan::number (overflow checking of the
source is not modeled; all uses stay far below the i64 bound). -/
def digitsToNat (ds : List Char) : Nat :=
  ds.foldl (fun a c => 10 * a + (c.toNat - 48)) 0

/-- Decimal digit characters of n, most significant first; the fuel is an
upper bound on the number of digits (n itself always suffices). -/
def natToCharsAux : Nat → Nat → List Char
  | 0, _ => []
  | fuel + 1, n =>
    if n = 0 then [] else natToCharsAux fuel (n / 10) ++ [Nat.digitChar (n % 10)]

/-- Decimal representation of a natural number, as Rust Display prints it. -/
def natToChars (n : Nat) : List Char :=
  if n = 0 then ['0'] else natToCharsAux n n

/-- Zero-pad a decimal representation on the left to the given width. -/
def padNat (width n : Nat) : List Char :=
  let ds := natToChars n
  List.replicate (width - ds.length) '0' ++ ds

/-- In-memory calendar date, modeling chrono NaiveDate. -/
structure NaiveDate where
  year : Int
  month : Nat
  day : Nat
deriving DecidableEq, Repr

/-- Proleptic Gregorian leap year. -/
def isLeapYear (y : Int) : Bool :=
  y % 4 = 0 && (y % 100 ≠ 0 || y % 400 = 0)

/-- Days in a month of the proleptic Gregorian calendar. -/
def daysInMonth (y : Int) (m : Nat) : Nat :=
  if m = 1 || m = 3 || m = 5 || m = 7 || m = 8 || m = 10 || m = 12 then 31
  else if m = 4 || m = 6 || m = 9 || m = 11 then 30
  else if m = 2 then (if isLeapYear y then 29 else 28)
  else 0

/-- The dates representable as a chrono NaiveDate: a valid proleptic
Gregorian date whose year lies in the supported range. -/
def NaiveDate.validDate (d : NaiveDate) : Prop :=
  -262144 ≤ d.year ∧ d.year ≤ 262143 ∧
  1 ≤ d.month ∧ d.month ≤ 12 ∧
  1 ≤ d.day ∧ d.day ≤ daysInMonth d.year d.month

instance (d : NaiveDate) : Decidable d.validDate := by
  unfold NaiveDate.validDate; infer_instance

/-- chrono formatting of a year under the Y specifier with zero padding:
years inside [0, 9999] as four zero-padded digits, years outside that
range with an explicit sign. -/
def formatYear (y : Int) : List Char :=
  if 0 ≤ y ∧ y < 10000 then padNat 4 y.toNat
  else if 0 ≤ y then '+' :: natToChars y.toNat
  else '-' :: padNat 4 (-y).toNat

/-- chrono formatting with the Y-m-d specifiers, as used for both the
TODO file header and the file name. -/
def formatDate (d : NaiveDate) : List Char :=
  formatYear d.year ++ '-' :: padNat 2 d.month ++ '-' :: padNat 2 d.day

/-- The ascii digit test used byte-wise by chrono scan::number. -/
def isAsciiDigit (c : Char) : Bool := 48 ≤ c.toNat && c.toNat ≤ 57

/-- chrono scan::number: consume between one and fuel leading ascii
digits, greedily; fails when the first character is not a digit. -/
def scanDigits : Nat → List Char → (List Char × List Char)
  | 0, s => ([], s)
  | _ + 1, [] => ([], [])
  | fuel + 1, c :: cs =>
    if isAsciiDigit c then
      let p := scanDigits fuel cs
      (c :: p.1, p.2)
    else ([], c :: cs)

/-- Parse a bounded-width unsigned number as chrono does for the m and d
specifiers (and for an unsigned year). -/
def scanNumber (maxw : Nat) (s : List Char) : Option (Nat × List Char) :=
  let p := scanDigits maxw s
  if p.1.isEmpty then none else some (digitsToNat p.1, p.2)

/-- chrono parsing of a year under the Y specifier: a leading sign admits
unboundedly many digits, otherwise at most four are taken. -/
def scanYear (s : List Char) : Option (Int × List Char) :=
  match s with
  | c :: rest =>
    if c = '-' then (scanNumber rest.length rest).map fun p => (-(p.1 : Int), p.2)
    else if c = '+' then (scanNumber rest.length rest).map fun p => ((p.1 : Int), p.2)
    else (scanNumber 4 (c :: rest)).map fun p => ((p.1 : Int), p.2)
  | [] => (scanNumber 4 []).map fun p => ((p.1 : Int), p.2)

/-- chrono NaiveDate::parse_from_str with format Y-m-d: whitespace may
precede each number, the whole input must be consumed, and the assembled
date must be a representable calendar date. -/
def parseDate (s : List Char) : Option NaiveDate :=
  match scanYear (s.dropWhile isRustWhitespace) with
  | none => none
  | some (y, s1) =>
    match s1 with
    | c1 :: s2 =>
      if c1 = '-' then
        match scanNumber 2 (s2.dropWhile isRustWhitespace) with
        | none => none
        | some (m, s3) =>
          match s3 with
          | c2 :: s4 =>
            if c2 = '-' then
              match scanNumber 2 (s4.dropWhile isRustWhitespace) with
              | none => none
              | some (d, s5) =>
                if s5.isEmpty ∧ NaiveDate.validDate ⟨y, m, d⟩ then
                  some ⟨y, m, d⟩
                else none
            else none
          | [] => none
      else none
    | [] => none

/-- One todo entry: text, completion flag, indentation depth. -/
structure TodoItem where
  text : List Char
  completed : Bool
  indent_level : Nat
deriving DecidableEq, Repr

instance : Inhabited TodoItem := ⟨⟨[], false, 0⟩⟩

/-- The ordered list of entries together with its date. -/
structure TodoList where
  date : NaiveDate
  items : List TodoItem
deriving DecidableEq, Repr

/-- TodoItem::to_markdown_line. -/
def TodoItem.to_markdown_line (it : TodoItem) : List Char :=
  let indent := listRepeat ("  ").data it.indent_level
  let checkbox := if it.completed then ("[x]").data else ("[ ]").data
  indent ++ ("* ").data ++ checkbox ++ (" ").data ++ it.text

/-- TodoList::to_markdown. -/
def TodoList.to_markdown (l : TodoList) : List Char :=
  ("# TODO ").data ++ formatDate l.date ++ ("\n\n").data ++
    (l.items.map fun it => it.to_markdown_line ++ ['\n']).flatten

/-- The body of the item loop of TodoList::from_markdown: lines that are
all whitespace, and lines that do not start with a star bullet after
trimming, are skipped (result none). -/
def parseItemLine (line : List Char) : Option TodoItem :=
  if (rustTrim line).isEmpty then none
  else
    let trimmed := rustTrimStart line
    let indent_level := (utf8Len line - utf8Len trimmed) / 2
    if !(listStartsWith trimmed (("* ").data)) then none
    else
      let content := trimmed.drop 2
      if listStartsWith content (("[x] ").data) then
        some ⟨content.drop 4, true, indent_level⟩
      else if listStartsWith content (("[ ] ").data) then
        some ⟨content.drop 4, false, indent_level⟩
      else
        some ⟨content, false, indent_level⟩

/-- The item loop of TodoList::from_markdown over the remaining lines. -/
def parseItems : List (List Char) → List TodoItem
  | [] => []
  | l :: ls =>
    match parseItemLine l with
    | some it => it :: parseItems ls
    | none => parseItems ls

/-- TodoList::from_markdown. -/
def TodoList.from_markdown (content : List Char) : Except String TodoList :=
  let lines := rustLines content
  if lines.isEmpty then .error ("Empty todo file")
  else
    let header := lines.headD []
    if !(listStartsWith header (("# TODO ").data)) then
      .error ("Invalid header format")
    else
      match parseDate (header.drop 7) with
      | none => .error ("Invalid date format in header")
      | some date => .ok ⟨date, parseItems (lines.drop 2)⟩

/-- Rust byte slicing at a byte index: splits the character list at the
given number of utf8 bytes; none models the panic raised when the index
falls inside a multi-byte character or beyond the end. -/
def splitAtByte : List Char → Nat → Option (List Char × List Char)
  | s, 0 => some ([], s)
  | [], _ + 1 => none
  | c :: cs, n + 1 =>
    if c.utf8Size ≤ n + 1 then
      match splitAtByte cs (n + 1 - c.utf8Size) with
      | some p => some (c :: p.1, p.2)
      | none => none
    else none

/-- The while loop of the long-word branch of wrap_todo_item_text: while
the remaining bytes exceed the width, slice off a chunk of exactly
text_width bytes.  Returns the full chunks and the final remainder.  The
fuel bounds the iteration count; the callers pass the utf8 length of the
word, which always suffices since text_width is at least one. -/
def breakLongWord : Nat → Nat → List Char → Option (List (List Char) × List Char)
  | 0, _, remaining => some ([], remaining)
  | fuel + 1, text_width, remaining =>
    if text_width < utf8Len remaining then
      match splitAtByte remaining text_width with
      | none => none
      | some (chunk, rest) =>
        match breakLongWord fuel text_width rest with
        | none => none
        | some (chunks, fin) => some (chunk :: chunks, fin)
    else some ([], remaining)

/-- The word loop of wrap_todo_item_text, carrying the flushed lines and
the current line. -/
def wrapWords (text_width : Nat) :
    List (List Char) → List (List Char) → List Char →
    Option (List (List Char) × List Char)
  | [], lines, current_line => some (lines, current_line)
  | word :: ws, lines, current_line =>
    if text_width < utf8Len word then
      let lines := if current_line.isEmpty then lines else lines ++ [current_line]
      match breakLongWord (utf8Len word) text_width word with
      | none => none
      | some (chunks, remaining) =>
        wrapWords text_width ws (lines ++ chunks)
          (if remaining.isEmpty then [] else remaining)
    else if text_width <
        utf8Len current_line + utf8Len word +
          (if current_line.isEmpty then 0 else 1) then
      wrapWords text_width ws
        (if current_line.isEmpty then lines else lines ++ [current_line]) word
    else
      wrapWords text_width ws lines
        (if current_line.isEmpty then word else current_line ++ ' ' :: word)

/-- The final loop of wrap_todo_item_text: line zero gets the full item
line head and the primary tag, every later line gets the continuation
indent and a non-primary tag. -/
def assembleLinesGo (pfxChars contChars : List Char) :
    Nat → List (List Char) → List (List Char × Bool)
  | _, [] => []
  | i, l :: ls =>
    (if i = 0 then (pfxChars ++ l, true) else (contChars ++ l, false)) ::
      assembleLinesGo pfxChars contChars (i + 1) ls

/-- The cursor marker character. -/
def CURSOR : Char := '|'

/-- Insert a character in front of the i-th character (at its byte
position, as the source computes via char_indices; beyond the end the
character is appended, matching the unwrap_or fallback). -/
def insertCharAt (s : List Char) (i : Nat) (c : Char) : List Char :=
  s.take i ++ c :: s.drop i

/-- The indent prefix of an item line. -/
def itemIndentChars (it : TodoItem) : List Char :=
  listRepeat ("  ").data it.indent_level

/-- The full head of the primary display line: indent, bullet, checkbox
and one separating space. -/
def itemLineHead (it : TodoItem) : List Char :=
  itemIndentChars it ++ ("* ").data ++
    (if it.completed then ("[x]").data else ("[ ]").data) ++ (" ").data

/-- The part of wrap_todo_item_text below the choice of the displayed
text (everything from the degenerate-width check on). -/
def wrapAfterText (item : TodoItem) (available_width : Nat)
    (text : List Char) : Option (List (List Char × Bool)) :=
  let pfxChars := itemLineHead item
  let pfxLen := utf8Len pfxChars
  if available_width ≤ pfxLen then some [(pfxChars ++ text, true)]
  else
    let text_width := available_width - pfxLen
    let words := rustSplitWhitespace text
    if words.isEmpty then some [(pfxChars, true)]
    else
      match wrapWords text_width words [] [] with
      | none => none
      | some (lines, current_line) =>
        let lines :=
          if current_line.isEmpty then lines else lines ++ [current_line]
        if lines.isEmpty then some [(pfxChars, true)]
        else some (assembleLinesGo pfxChars (itemIndentChars item ++ ("   ").data) 0 lines)

/-- wrap_todo_item_text.  none models the byte-slicing panic of the
long-word branch on multi-byte characters. -/
def wrap_todo_item_text (item : TodoItem) (available_width : Nat)
    (is_selected : Bool) (edit_text : List Char) (edit_cursor : Nat)
    (is_editing : Bool) : Option (List (List Char × Bool)) :=
  let text :=
    if is_editing && is_selected then insertCharAt edit_text edit_cursor CURSOR
    else item.text
  wrapAfterText item available_width text

/-- The three modes of the interaction state machine. -/
inductive AppMode
  | Selection
  | Edit
  | Delete
deriving DecidableEq, Repr

/-- The key events the handlers distinguish; Other stands for every other
crossterm key code, all of which fall into the catch-all arms. -/
inductive KeyCode
  | Char (c : Char)
  | Up
  | Down
  | Enter
  | Tab
  | BackTab
  | Esc
  | Left
  | Right
  | Backspace
  | Delete
  | Home
  | End
  | Other
deriving DecidableEq, Repr

/-- The application state of the terminal front-end.  The config
directory, the lock file and the quit flag consumer are external
input/output collaborators; save_todo_list (file persistence plus a date
refresh from the system clock) is modeled as a no-op, since the claims
under verification concern items, selection and mode only. -/
structure App where
  todo_list : TodoList
  selected_index : Nat
  mode : AppMode
  edit_text : List Char
  edit_cursor : Nat
  should_quit : Bool
deriving DecidableEq, Repr

/-- Vec::insert at an index that the call sites keep at most the length. -/
def vecInsert (l : List TodoItem) (i : Nat) (x : TodoItem) : List TodoItem :=
  l.take i ++ x :: l.drop i

/-- Vec::remove at an index that the call sites keep below the length. -/
def vecRemove (l : List TodoItem) (i : Nat) : List TodoItem :=
  l.take i ++ l.drop (i + 1)

/-- Remove the i-th character (String::drain over the byte range of one
character, as computed via char_indices). -/
def removeCharAt (s : List Char) (i : Nat) : List Char :=
  s.take i ++ s.drop (i + 1)

/-- The selection-mode action of the up arrow (shared with the k key). -/
def selUpAction (app : App) : Option App :=
  if ¬ app.todo_list.items.isEmpty ∧ 0 < app.selected_index then
    some { app with selected_index := app.selected_index - 1 }
  else some app

/-- The selection-mode action of the down arrow (shared with the j key). -/
def selDownAction (app : App) : Option App :=
  if ¬ app.todo_list.items.isEmpty ∧
      app.selected_index < app.todo_list.items.length then
    some { app with selected_index := app.selected_index + 1 }
  else some app

/-- The selection-mode action of the toggle key x. -/
def selToggleAction (app : App) : Option App :=
  if h : ¬ app.todo_list.items.isEmpty ∧
      app.selected_index < app.todo_list.items.length then
    let it := app.todo_list.items.get ⟨app.selected_index, h.2⟩
    some { app with
      todo_list := { app.todo_list with
        items := app.todo_list.items.set app.selected_index
          { it with completed := !it.completed } } }
  else some app

/-- The selection-mode action of the insert key i. -/
def selInsertAction (app : App) : Option App :=
  let indent_level :=
    if app.todo_list.items.isEmpty then 0
    else if app.selected_index = 0 then 0
    else
      -- prev_index is below the length, so the default is never read
      let prev_index :=
        min (app.selected_index - 1) (app.todo_list.items.length - 1)
      (app.todo_list.items.getD prev_index default).indent_level
  let new_item : TodoItem := ⟨[], false, indent_level⟩
  let insert_pos :=
    if app.todo_list.items.isEmpty then 0
    else min app.selected_index app.todo_list.items.length
  some { app with
    todo_list := { app.todo_list with
      items := vecInsert app.todo_list.items insert_pos new_item },
    selected_index := insert_pos,
    edit_text := [],
    edit_cursor := 0,
    mode := .Edit }

/-- The selection-mode action of the confirm key (enter). -/
def selConfirmAction (app : App) : Option App :=
  if h : ¬ app.todo_list.items.isEmpty ∧
      app.selected_index < app.todo_list.items.length then
    let it := app.todo_list.items.get ⟨app.selected_index, h.2⟩
    some { app with
      edit_text := it.text,
      edit_cursor := it.text.length,
      mode := .Edit }
  else some app

/-- The selection-mode action of the indent key (tab). -/
def selIndentAction (app : App) : Option App :=
  if h : ¬ app.todo_list.items.isEmpty ∧
      app.selected_index < app.todo_list.items.length then
    let it := app.todo_list.items.get ⟨app.selected_index, h.2⟩
    some { app with
      todo_list := { app.todo_list with
        items := app.todo_list.items.set app.selected_index
          { it with indent_level := it.indent_level + 1 } } }
  else some app

/-- The selection-mode action of the outdent key (back-tab). -/
def selOutdentAction (app : App) : Option App :=
  if h : ¬ app.todo_list.items.isEmpty ∧
      app.selected_index < app.todo_list.items.length then
    let it := app.todo_list.items.get ⟨app.selected_index, h.2⟩
    if 0 < it.indent_level then
      some { app with
        todo_list := { app.todo_list with
          items := app.todo_list.items.set app.selected_index
            { it with indent_level := it.indent_level - 1 } } }
    else some app
  else some app

/-- The selection-mode action of the delete key d. -/
def selDeleteModeAction (app : App) : Option App :=
  if ¬ app.todo_list.items.isEmpty ∧
      app.selected_index < app.todo_list.items.length then
    some { app with mode := .Delete }
  else some app

/-- App::handle_selection_mode_key. -/
def handle_selection_mode_key (app : App) (key : KeyCode) : Option App :=
  match key with
  | .Char c =>
    if c = 'q' then some { app with should_quit := true }
    else if c = 'k' then selUpAction app
    else if c = 'j' then selDownAction app
    else if c = 'x' then selToggleAction app
    else if c = 'i' then selInsertAction app
    else if c = 'd' then selDeleteModeAction app
    else some app
  | .Up => selUpAction app
  | .Down => selDownAction app
  | .Enter => selConfirmAction app
  | .Tab => selIndentAction app
  | .BackTab => selOutdentAction app
  | _ => some app

theorem hsel_char (app : App) (c : Char) :
    handle_selection_mode_key app (KeyCode.Char c) =
      (if c = 'q' then some { app with should_quit := true }
       else if c = 'k' then selUpAction app
       else if c = 'j' then selDownAction app
       else if c = 'x' then selToggleAction app
       else if c = 'i' then selInsertAction app
       else if c = 'd' then selDeleteModeAction app
       else some app) := rfl

theorem hsel_up (app : App) :
    handle_selection_mode_key app KeyCode.Up = selUpAction app := rfl

theorem hsel_down (app : App) :
    handle_selection_mode_key app KeyCode.Down = selDownAction app := rfl

theorem hsel_enter (app : App) :
    handle_selection_mode_key app KeyCode.Enter = selConfirmAction app := rfl

theorem hsel_tab (app : App) :
    handle_selection_mode_key app KeyCode.Tab = selIndentAction app := rfl

theorem hsel_backtab (app : App) :
    handle_selection_mode_key app KeyCode.BackTab = selOutdentAction app := rfl

/-- App::handle_edit_mode_key.  The Esc arm indexes the item list without
a bounds check; the out-of-bounds panic is modeled as none. -/
def handle_edit_mode_key (app : App) (key : KeyCode) : Option App :=
  match key with
  | .Esc =>
    match app.todo_list.items.get? app.selected_index with
    | none => none
    | some it =>
      let app :=
        if it.text.isEmpty then
          let items2 := vecRemove app.todo_list.items app.selected_index
          let sel :=
            if 0 < app.selected_index ∧ items2.length ≤ app.selected_index then
              app.selected_index - 1
            else app.selected_index
          { app with
            todo_list := { app.todo_list with items := items2 },
            selected_index := sel }
        else app
      some { app with mode := .Selection }
  | .Enter =>
    let app :=
      if h : app.selected_index < app.todo_list.items.length then
        let it := app.todo_list.items.get ⟨app.selected_index, h⟩
        { app with
          todo_list := { app.todo_list with
            items := app.todo_list.items.set app.selected_index
              { it with text := app.edit_text } } }
      else app
    some { app with mode := .Selection }
  | .Left =>
    if 0 < app.edit_cursor then
      some { app with edit_cursor := app.edit_cursor - 1 }
    else some app
  | .Right =>
    if app.edit_cursor < app.edit_text.length then
      some { app with edit_cursor := app.edit_cursor + 1 }
    else some app
  | .Backspace =>
    if 0 < app.edit_cursor then
      if app.edit_cursor - 1 < app.edit_text.length then
        some { app with
          edit_text := removeCharAt app.edit_text (app.edit_cursor - 1),
          edit_cursor := app.edit_cursor - 1 }
      else some app
    else some app
  | .Delete =>
    if app.edit_cursor < app.edit_text.length then
      some { app with edit_text := removeCharAt app.edit_text app.edit_cursor }
    else some app
  | .Home => some { app with edit_cursor := 0 }
  | .End => some { app with edit_cursor := app.edit_text.length }
  | .Char c =>
    some { app with
      edit_text := insertCharAt app.edit_text app.edit_cursor c,
      edit_cursor := app.edit_cursor + 1 }
  | _ => some app

/-- The delete-mode action of the confirm key y. -/
def delConfirmAction (app : App) : Option App :=
  let app :=
    if ¬ app.todo_list.items.isEmpty ∧
        app.selected_index < app.todo_list.items.length then
      let items2 := vecRemove app.todo_list.items app.selected_index
      let sel :=
        if items2.length ≤ app.selected_index ∧ ¬ items2.isEmpty then
          items2.length - 1
        else app.selected_index
      { app with
        todo_list := { app.todo_list with items := items2 },
        selected_index := sel }
    else app
  some { app with mode := .Selection }

/-- App::handle_delete_mode_key. -/
def handle_delete_mode_key (app : App) (key : KeyCode) : Option App :=
  match key with
  | .Char c =>
    if c = 'y' then delConfirmAction app
    else some app
  | .Esc => some { app with mode := .Selection }
  | _ => some app

theorem hdelmode_char (app : App) (c : Char) :
    handle_delete_mode_key app (KeyCode.Char c) =
      (if c = 'y' then delConfirmAction app else some app) := rfl

/-- App::handle_key_event. -/
def handle_key_event (app : App) (key : KeyCode) : Option App :=
  match app.mode with
  | .Selection => handle_selection_mode_key app key
  | .Edit => handle_edit_mode_key app key
  | .Delete => handle_delete_mode_key app key

/-- TodoApp::toggle_item_completed (the shared core used by both
front-ends); the save that follows the mutation is external output. -/
def toggle_item_completed (l : TodoList) (index : Nat) : TodoList :=
  if h : index < l.items.length then
    let it := l.items.get ⟨index, h⟩
    { l with items := l.items.set index { it with completed := !it.completed } }
  else l

/-! ### Helper lemmas -/

theorem vecInsert_length (l : List TodoItem) (i : Nat) (x : TodoItem) :
    (vecInsert l i x).length = l.length + 1 := by
  simp [vecInsert]; omega

theorem vecRemove_length (l : List TodoItem) (i : Nat) (h : i < l.length) :
    (vecRemove l i).length = l.length - 1 := by
  simp [vecRemove]; omega

theorem isEmpty_iff_len (l : List TodoItem) : l.isEmpty ↔ l.length = 0 := by
  cases l <;> simp

/-- The bound the interaction state machine maintains on the selection:
at most one past the end, and strictly inside the list while editing. -/
@[reducible] def SelBound (app : App) : Prop :=
  app.selected_index ≤ app.todo_list.items.length ∧
  (app.mode = AppMode.Edit → app.selected_index < app.todo_list.items.length)

/-! ### Concrete fixtures for the scenarios of the claims -/

/-- A sample date. -/
def d0 : NaiveDate := ⟨2025, 8, 14⟩

/-- One item, selection on the virtual append slot. -/
def appVirtual : App :=
  ⟨⟨d0, [⟨("Existing item").data, false, 0⟩]⟩, 1, .Selection, [], 0, false⟩

/-- One item, edit mode with the selection far out of range. -/
def appOutOfRange : App :=
  ⟨⟨d0, [⟨("Test").data, false, 0⟩]⟩, 5, .Edit, ("Modified text").data, 13, false⟩

/-- One item of indent level three, selection on index zero. -/
def appIndent3 : App :=
  ⟨⟨d0, [⟨("a").data, false, 3⟩]⟩, 0, .Selection, [], 0, false⟩

/-- Edit buffer Hallo with the cursor at the end. -/
def appHallo : App :=
  ⟨⟨d0, [⟨("Test").data, false, 0⟩]⟩, 0, .Edit, ("Hallo").data, 5, false⟩

/-- Three items, delete confirmation pending on the last one. -/
def appThreeDel : App :=
  ⟨⟨d0, [⟨("Item 1").data, false, 0⟩, ⟨("Item 2").data, false, 0⟩,
         ⟨("Item 3").data, false, 0⟩]⟩, 2, .Delete, [], 0, false⟩

/-- One item, delete confirmation pending on it. -/
def appOneDel : App :=
  ⟨⟨d0, [⟨("Only item").data, false, 0⟩]⟩, 0, .Delete, [], 0, false⟩

/-- A single two-byte character as the item text. -/
def itemUmlaut : TodoItem := ⟨("ä").data, false, 0⟩

/-- Two four-character words. -/
def itemAB : TodoItem := ⟨("aaaa bbbb").data, false, 0⟩

/-- A list whose only item text is a bare carriage return. -/
def listCr : TodoList := ⟨⟨2025, 8, 14⟩, [⟨['\r'], false, 0⟩]⟩

/-! ### C1 -/

/-- C1 counterexample: in Selection mode with the selection on the virtual
append slot (index = length), the enter key leaves the state completely
unchanged: no item is appended and the mode stays Selection, contradicting
the claimed append-and-edit transition. -/
theorem c1_counterexample :
    handle_key_event appVirtual KeyCode.Enter = some appVirtual ∧
    appVirtual.mode = AppMode.Selection ∧
    appVirtual.selected_index = appVirtual.todo_list.items.length ∧
    appVirtual.todo_list.items.length = 1 := by
  refine ⟨by decide, rfl, rfl, rfl⟩

/-- C1 amended: in Selection mode with the selection equal to the item
count, the enter key is a no-op: the state (items, mode, everything) is
unchanged. -/
theorem c1_amended (app : App)
    (h : app.selected_index = app.todo_list.items.length) :
    handle_selection_mode_key app KeyCode.Enter = some app := by
  rw [hsel_enter]
  unfold selConfirmAction
  rw [dif_neg]
  rintro ⟨-, h2⟩
  omega

/-- C1 witness for the amended no-op statement. -/
theorem c1_witness :
    appVirtual.selected_index = appVirtual.todo_list.items.length ∧
    handle_selection_mode_key appVirtual KeyCode.Enter = some appVirtual :=
  ⟨by decide, c1_amended appVirtual (by decide)⟩

/-! ### C2 -/

/-- C2 counterexample: with the selection out of range, the edit-mode
cancel key hits the unchecked indexing and the handler panics (modeled as
none), contradicting the claimed no-crash behavior. -/
theorem c2_counterexample :
    appOutOfRange.todo_list.items.length ≤ appOutOfRange.selected_index ∧
    handle_key_event appOutOfRange KeyCode.Esc = none := by
  refine ⟨by decide, by decide⟩

/-- C2 amended: with the selection at or past the item count, toggle,
indent, outdent and edit-confirm leave the state unmutated without
panicking (edit-confirm still returns to Selection), but edit-cancel hits
the unchecked indexing and panics. -/
theorem c2_amended (app : App)
    (h : app.todo_list.items.length ≤ app.selected_index) :
    handle_selection_mode_key app (KeyCode.Char 'x') = some app ∧
    handle_selection_mode_key app KeyCode.Tab = some app ∧
    handle_selection_mode_key app KeyCode.BackTab = some app ∧
    handle_edit_mode_key app KeyCode.Enter =
      some { app with mode := AppMode.Selection } ∧
    handle_edit_mode_key app KeyCode.Esc = none := by
  refine ⟨?_, ?_, ?_, ?_, ?_⟩
  · rw [hsel_char, if_neg (by decide), if_neg (by decide), if_neg (by decide),
      if_pos rfl]
    unfold selToggleAction
    rw [dif_neg]
    rintro ⟨-, h2⟩; omega
  · rw [hsel_tab]
    unfold selIndentAction
    rw [dif_neg]
    rintro ⟨-, h2⟩; omega
  · rw [hsel_backtab]
    unfold selOutdentAction
    rw [dif_neg]
    rintro ⟨-, h2⟩; omega
  · simp only [handle_edit_mode_key]
    rw [dif_neg (by omega)]
  · simp only [handle_edit_mode_key]
    rw [List.get?_eq_none.mpr h]

/-- C2 witness for the amended statement. -/
theorem c2_witness :
    appOutOfRange.todo_list.items.length ≤ appOutOfRange.selected_index ∧
    handle_edit_mode_key appOutOfRange KeyCode.Esc = none :=
  ⟨by decide, (c2_amended appOutOfRange (by decide)).2.2.2.2⟩

/-! ### C4 -/

/-- C4: evaluating the wrapper at the failing input: one item whose text
is a single two-byte character, available width seven (content width one).
The forced-break branch byte-slices inside the character and the function
panics, modeled as none, instead of producing chunked lines. -/
theorem c4_panic : wrap_todo_item_text itemUmlaut 7 false [] 0 false = none := by
  decide

/-! ### C5 -/

/-- C5 counterexample: with a non-empty list and the selection on index
zero, the insert key creates the item with indent level zero, not the
indent level (three) of the currently indexed item as the claim states. -/
theorem c5_counterexample :
    ((handle_key_event appIndent3 (KeyCode.Char 'i')).map
      (fun a => (a.todo_list.items.headD default).indent_level)) = some 0 ∧
    (appIndent3.todo_list.items.headD default).indent_level = 3 := by
  refine ⟨by decide, rfl⟩

/-- C5 amended: the insert key inserts an empty incomplete item at the
selection clamped to the length, moves the selection there and opens Edit
with an empty buffer; the indent is inherited from the item at
min(selection - 1, length - 1) when the list is non-empty and the
selection is positive, and is zero otherwise. -/
theorem c5_amended (app : App) :
    handle_selection_mode_key app (KeyCode.Char 'i') =
      some { app with
        todo_list := { app.todo_list with
          items := vecInsert app.todo_list.items
            (if app.todo_list.items.isEmpty then 0
             else min app.selected_index app.todo_list.items.length)
            ⟨[], false,
              if app.todo_list.items.isEmpty ∨ app.selected_index = 0 then 0
              else (app.todo_list.items.getD
                (min (app.selected_index - 1) (app.todo_list.items.length - 1))
                default).indent_level⟩ },
        selected_index :=
          if app.todo_list.items.isEmpty then 0
          else min app.selected_index app.todo_list.items.length,
        edit_text := [],
        edit_cursor := 0,
        mode := AppMode.Edit } := by
  rw [hsel_char, if_neg (by decide), if_neg (by decide), if_neg (by decide),
    if_neg (by decide), if_pos rfl]
  unfold selInsertAction
  by_cases he : app.todo_list.items.isEmpty <;>
    by_cases hz : app.selected_index = 0 <;>
      simp [he, hz]

/-! ### C8 -/

/-- C8: edit-buffer character insertion is codepoint indexed: with the
cursor at k (at most the codepoint count), the typed character lands after
exactly k codepoints and the cursor advances by one; concretely, Hallo
with cursor five takes an u-umlaut at the end (cursor six), and with the
cursor moved to two an o-umlaut lands after two codepoints (cursor
three). -/
theorem c8_insert :
    (∀ (app : App) (c : Char), app.edit_cursor ≤ app.edit_text.length →
      handle_edit_mode_key app (KeyCode.Char c) =
        some { app with
          edit_text := app.edit_text.take app.edit_cursor ++
            c :: app.edit_text.drop app.edit_cursor,
          edit_cursor := app.edit_cursor + 1 }) ∧
    handle_edit_mode_key appHallo (KeyCode.Char 'ü') =
      some { appHallo with edit_text := ("Halloü").data, edit_cursor := 6 } ∧
    handle_edit_mode_key
        { appHallo with edit_text := ("Halloü").data, edit_cursor := 2 }
        (KeyCode.Char 'ö') =
      some { appHallo with edit_text := ("Haölloü").data, edit_cursor := 3 } := by
  refine ⟨fun app c _ => rfl, by decide, by decide⟩

/-- C8 witness for the universally quantified part. -/
theorem c8_witness :
    appHallo.edit_cursor ≤ appHallo.edit_text.length ∧
    handle_edit_mode_key appHallo (KeyCode.Char 'Z') =
      some { appHallo with edit_text := ("HalloZ").data, edit_cursor := 6 } := by
  refine ⟨by decide, ?_⟩
  rw [c8_insert.1 appHallo 'Z' (by decide)]
  decide

/-! ### C10 -/

/-- C10: toggling completion at an in-range index flips exactly the
completed flag of that item: the date, the item count, every other item,
and the text and indent of the toggled item are unchanged. -/
theorem c10_toggle_frame (l : TodoList) (i : Nat) (h : i < l.items.length) :
    (toggle_item_completed l i).date = l.date ∧
    (toggle_item_completed l i).items.length = l.items.length ∧
    (∃ it, l.items.get? i = some it ∧
      (toggle_item_completed l i).items.get? i =
        some { it with completed := !it.completed }) ∧
    (∀ j, j ≠ i → (toggle_item_completed l i).items.get? j = l.items.get? j) := by
  unfold toggle_item_completed
  rw [dif_pos h]
  refine ⟨rfl, by simp, ⟨l.items.get ⟨i, h⟩, List.get?_eq_get h, ?_⟩, ?_⟩
  · exact List.get?_set_eq_of_lt _ (by simpa using h)
  · intro j hj
    exact List.get?_set_ne _ _ (fun hi => hj (hi.symm))

/-- C10 witness at a concrete three-item list. -/
theorem c10_witness :
    (1 < (⟨d0, [⟨("a").data, false, 0⟩, ⟨("b").data, true, 1⟩,
        ⟨("c").data, false, 2⟩]⟩ : TodoList).items.length) ∧
    (toggle_item_completed ⟨d0, [⟨("a").data, false, 0⟩, ⟨("b").data, true, 1⟩,
        ⟨("c").data, false, 2⟩]⟩ 1).items.length = 3 :=
  ⟨by decide,
    (c10_toggle_frame ⟨d0, [⟨("a").data, false, 0⟩, ⟨("b").data, true, 1⟩,
        ⟨("c").data, false, 2⟩]⟩ 1 (by decide)).2.1⟩

/-! ### C9 -/

theorem selBound_of_not_edit (app : App) (hm : app.mode ≠ AppMode.Edit)
    (h : app.selected_index ≤ app.todo_list.items.length) : SelBound app :=
  ⟨h, fun hE => absurd hE hm⟩

theorem selUp_bound (app : App) (hm : app.mode = AppMode.Selection)
    (h : app.selected_index ≤ app.todo_list.items.length) :
    ∃ app2, selUpAction app = some app2 ∧ SelBound app2 := by
  unfold selUpAction
  split_ifs with hg
  · exact ⟨_, rfl, by simp; omega, fun hE => absurd (hm.symm.trans hE) (by decide)⟩
  · exact ⟨app, rfl, selBound_of_not_edit app (by rw [hm]; decide) h⟩

theorem selDown_bound (app : App) (hm : app.mode = AppMode.Selection)
    (h : app.selected_index ≤ app.todo_list.items.length) :
    ∃ app2, selDownAction app = some app2 ∧ SelBound app2 := by
  unfold selDownAction
  split_ifs with hg
  · exact ⟨_, rfl, by simp; omega, fun hE => absurd (hm.symm.trans hE) (by decide)⟩
  · exact ⟨app, rfl, selBound_of_not_edit app (by rw [hm]; decide) h⟩

theorem selToggle_bound (app : App) (hm : app.mode = AppMode.Selection)
    (h : app.selected_index ≤ app.todo_list.items.length) :
    ∃ app2, selToggleAction app = some app2 ∧ SelBound app2 := by
  unfold selToggleAction
  split_ifs with hg
  · exact ⟨_, rfl, by simp; omega, fun hE => absurd (hm.symm.trans hE) (by decide)⟩
  · exact ⟨app, rfl, selBound_of_not_edit app (by rw [hm]; decide) h⟩

theorem selInsert_bound (app : App)
    (h : app.selected_index ≤ app.todo_list.items.length) :
    ∃ app2, selInsertAction app = some app2 ∧ SelBound app2 := by
  unfold selInsertAction
  refine ⟨_, rfl, ?_, ?_⟩
  · simp [vecInsert_length, Nat.min_def]
    split_ifs <;> omega
  · intro _
    simp [vecInsert_length, Nat.min_def]
    split_ifs <;> omega

theorem selConfirm_bound (app : App)
    (h : app.selected_index ≤ app.todo_list.items.length)
    (hm : app.mode = AppMode.Selection) :
    ∃ app2, selConfirmAction app = some app2 ∧ SelBound app2 := by
  unfold selConfirmAction
  split_ifs with hg
  · exact ⟨_, rfl, by simp; omega, fun _ => by simp; omega⟩
  · exact ⟨app, rfl, selBound_of_not_edit app (by rw [hm]; decide) h⟩

theorem selIndent_bound (app : App) (hm : app.mode = AppMode.Selection)
    (h : app.selected_index ≤ app.todo_list.items.length) :
    ∃ app2, selIndentAction app = some app2 ∧ SelBound app2 := by
  unfold selIndentAction
  split_ifs with hg
  · exact ⟨_, rfl, by simp; omega, fun hE => absurd (hm.symm.trans hE) (by decide)⟩
  · exact ⟨app, rfl, selBound_of_not_edit app (by rw [hm]; decide) h⟩

theorem selOutdent_bound (app : App) (hm : app.mode = AppMode.Selection)
    (h : app.selected_index ≤ app.todo_list.items.length) :
    ∃ app2, selOutdentAction app = some app2 ∧ SelBound app2 := by
  unfold selOutdentAction
  split_ifs with hg
  · dsimp only
    split
    · exact ⟨_, rfl, by simp; omega, fun hE => absurd (hm.symm.trans hE) (by decide)⟩
    · exact ⟨app, rfl, selBound_of_not_edit app (by rw [hm]; decide) h⟩
  · exact ⟨app, rfl, selBound_of_not_edit app (by rw [hm]; decide) h⟩

theorem selDeleteMode_bound (app : App) (hm : app.mode = AppMode.Selection)
    (h : app.selected_index ≤ app.todo_list.items.length) :
    ∃ app2, selDeleteModeAction app = some app2 ∧ SelBound app2 := by
  unfold selDeleteModeAction
  split_ifs with hg
  · exact ⟨_, rfl, h, fun hE => by simp at hE⟩
  · exact ⟨app, rfl, selBound_of_not_edit app (by rw [hm]; decide) h⟩

theorem editKey_bound (app : App) (key : KeyCode)
    (hm : app.mode = AppMode.Edit)
    (hlt : app.selected_index < app.todo_list.items.length) :
    ∃ app2, handle_edit_mode_key app key = some app2 ∧ SelBound app2 := by
  cases key with
  | Esc =>
    simp only [handle_edit_mode_key]
    rw [List.get?_eq_get hlt]
    dsimp only
    split_ifs with ht hs
    · refine ⟨_, rfl, ?_, fun hE => by simp at hE⟩
      have h2 := vecRemove_length app.todo_list.items app.selected_index hlt
      simp
      omega
    · refine ⟨_, rfl, ?_, fun hE => by simp at hE⟩
      have h2 := vecRemove_length app.todo_list.items app.selected_index hlt
      push_neg at hs
      simp
      by_cases hc : 0 < app.selected_index
      · have := hs hc; omega
      · omega
    · exact ⟨_, rfl, by simp; omega, fun hE => by simp at hE⟩
  | Enter =>
    simp only [handle_edit_mode_key]
    split_ifs
    exact ⟨_, rfl, by simp; omega, fun hE => by simp at hE⟩
  | Left =>
    simp only [handle_edit_mode_key]
    split_ifs with hc
    · exact ⟨_, rfl, by simp; omega, fun _ => by simp; omega⟩
    · exact ⟨app, rfl, le_of_lt hlt, fun _ => hlt⟩
  | Right =>
    simp only [handle_edit_mode_key]
    split_ifs with hc
    · exact ⟨_, rfl, by simp; omega, fun _ => by simp; omega⟩
    · exact ⟨app, rfl, le_of_lt hlt, fun _ => hlt⟩
  | Backspace =>
    simp only [handle_edit_mode_key]
    split_ifs with hc hr
    · exact ⟨_, rfl, by simp; omega, fun _ => by simp; omega⟩
    · exact ⟨app, rfl, le_of_lt hlt, fun _ => hlt⟩
    · exact ⟨app, rfl, le_of_lt hlt, fun _ => hlt⟩
  | Delete =>
    simp only [handle_edit_mode_key]
    split_ifs with hc
    · exact ⟨_, rfl, by simp; omega, fun _ => by simp; omega⟩
    · exact ⟨app, rfl, le_of_lt hlt, fun _ => hlt⟩
  | Home =>
    exact ⟨_, rfl, by simp; omega, fun _ => by simp; omega⟩
  | End =>
    exact ⟨_, rfl, by simp; omega, fun _ => by simp; omega⟩
  | Char c =>
    exact ⟨_, rfl, by simp; omega, fun _ => by simp; omega⟩
  | Up => exact ⟨app, rfl, le_of_lt hlt, fun _ => hlt⟩
  | Down => exact ⟨app, rfl, le_of_lt hlt, fun _ => hlt⟩
  | Tab => exact ⟨app, rfl, le_of_lt hlt, fun _ => hlt⟩
  | BackTab => exact ⟨app, rfl, le_of_lt hlt, fun _ => hlt⟩
  | Other => exact ⟨app, rfl, le_of_lt hlt, fun _ => hlt⟩

theorem deleteKey_bound (app : App) (key : KeyCode)
    (hm : app.mode = AppMode.Delete)
    (h : app.selected_index ≤ app.todo_list.items.length) :
    ∃ app2, handle_delete_mode_key app key = some app2 ∧ SelBound app2 := by
  cases key with
  | Char c =>
    rw [hdelmode_char]
    split_ifs with hy
    · unfold delConfirmAction
      split_ifs with hg
      · dsimp only
        split_ifs with hs
        · refine ⟨_, rfl, ?_, fun hE => by simp at hE⟩
          have h2 :=
            vecRemove_length app.todo_list.items app.selected_index hg.2
          simp
          try omega
        · refine ⟨_, rfl, ?_, fun hE => by simp at hE⟩
          have h2 :=
            vecRemove_length app.todo_list.items app.selected_index hg.2
          push_neg at hs
          simp
          by_cases hc :
              (vecRemove app.todo_list.items app.selected_index).length ≤
                app.selected_index
          · have := (isEmpty_iff_len _).mp (hs hc); omega
          · omega
      · exact ⟨_, rfl, h, fun hE => by simp at hE⟩
    · exact ⟨app, rfl, selBound_of_not_edit app (by rw [hm]; decide) h⟩
  | Esc =>
    exact ⟨_, rfl, h, fun hE => by simp at hE⟩
  | Up | Down | Enter | Tab | BackTab | Left | Right | Backspace | Delete
  | Home | End | Other =>
    exact ⟨app, rfl, selBound_of_not_edit app (by rw [hm]; decide) h⟩

theorem selKey_bound (app : App) (key : KeyCode)
    (hm : app.mode = AppMode.Selection)
    (h1 : app.selected_index ≤ app.todo_list.items.length) :
    ∃ app2, handle_selection_mode_key app key = some app2 ∧ SelBound app2 := by
  cases key with
  | Char c =>
    rw [hsel_char]
    split_ifs with hq hk hj hx hi hd
    · exact ⟨_, rfl, h1, fun hE => absurd (hm.symm.trans hE) (by decide)⟩
    · exact selUp_bound app hm h1
    · exact selDown_bound app hm h1
    · exact selToggle_bound app hm h1
    · exact selInsert_bound app h1
    · exact selDeleteMode_bound app hm h1
    · exact ⟨app, rfl, selBound_of_not_edit app (by rw [hm]; decide) h1⟩
  | Up => rw [hsel_up]; exact selUp_bound app hm h1
  | Down => rw [hsel_down]; exact selDown_bound app hm h1
  | Enter => rw [hsel_enter]; exact selConfirm_bound app h1 hm
  | Tab => rw [hsel_tab]; exact selIndent_bound app hm h1
  | BackTab => rw [hsel_backtab]; exact selOutdent_bound app hm h1
  | Esc | Left | Right | Backspace | Delete | Home | End | Other =>
    exact ⟨app, rfl, selBound_of_not_edit app (by rw [hm]; decide) h1⟩

/-- C9: the bound selection at most the item count (and strictly inside
while editing) is preserved by every key event in every mode, the handlers
never panic from such states, and in particular a confirmed delete clamps
the selection: three items with index two leave two items with index one,
and deleting the only item leaves index zero. -/
theorem c9_selection_bound :
    (∀ (app : App) (key : KeyCode), SelBound app →
      ∃ app2, handle_key_event app key = some app2 ∧ SelBound app2) ∧
    ((handle_key_event appThreeDel (KeyCode.Char 'y')).map
      (fun a => (a.todo_list.items.length, a.selected_index, a.mode))) =
        some (2, 1, AppMode.Selection) ∧
    ((handle_key_event appOneDel (KeyCode.Char 'y')).map
      (fun a => (a.todo_list.items.length, a.selected_index, a.mode))) =
        some (0, 0, AppMode.Selection) := by
  refine ⟨?_, by decide, by decide⟩
  intro app key hb
  have h1 := hb.1
  simp only [handle_key_event]
  cases hmode : app.mode with
  | Selection => exact selKey_bound app key hmode h1
  | Edit => exact editKey_bound app key hmode (hb.2 hmode)
  | Delete => exact deleteKey_bound app key hmode h1

/-- C9 witness for the universally quantified part. -/
theorem c9_witness :
    SelBound appHallo ∧
    ∃ app2, handle_key_event appHallo KeyCode.Home = some app2 ∧
      SelBound app2 :=
  ⟨by decide, c9_selection_bound.1 appHallo KeyCode.Home (by decide)⟩

/-! ### C6 -/

theorem assembleGo_pos (p c2 : List Char) (ls : List (List Char)) (i : Nat)
    (h : 0 < i) :
    assembleLinesGo p c2 i ls = ls.map fun l => (c2 ++ l, false) := by
  induction ls generalizing i with
  | nil => simp [assembleLinesGo]
  | cons l tl ih =>
    unfold assembleLinesGo
    rw [if_neg (by omega), ih (i + 1) (by omega)]
    simp

theorem assembleGo_zero (p c2 : List Char) (l0 : List Char)
    (ls : List (List Char)) :
    assembleLinesGo p c2 0 (l0 :: ls) =
      (p ++ l0, true) :: (ls.map fun l => (c2 ++ l, false)) := by
  unfold assembleLinesGo
  rw [if_pos rfl, assembleGo_pos _ _ _ _ (by omega)]

theorem assemble_props (p c2 : List Char) (ls : List (List Char))
    (hne : ls ≠ []) :
    (∃ c0, (assembleLinesGo p c2 0 ls).head? = some (p ++ c0, true)) ∧
    (∀ i, 0 < i → ∀ line tag,
      (assembleLinesGo p c2 0 ls).get? i = some (line, tag) →
      tag = false ∧ ∃ chunk, line = c2 ++ chunk) := by
  obtain ⟨l0, tl, rfl⟩ := List.exists_cons_of_ne_nil hne
  rw [assembleGo_zero]
  refine ⟨⟨l0, rfl⟩, ?_⟩
  intro i hi line tag hget
  cases i with
  | zero => omega
  | succ j =>
    rw [List.get?_cons_succ, List.get?_map] at hget
    cases e : tl.get? j with
    | none => rw [e] at hget; simp at hget
    | some l =>
      rw [e] at hget
      obtain ⟨hline, htag⟩ := Prod.mk.injEq .. ▸ Option.some_inj.mp hget
      exact ⟨htag.symm ▸ rfl, l, hline.symm ▸ rfl⟩

/-- C6 amended: whenever the wrapper returns more than one line, the first
line is the item line head (indent, bullet, checkbox, space) followed by
text and is tagged primary, and every later line is tagged non-primary
and starts with the continuation indent, which is the item indent plus
three spaces (three columns short of the prefix width, so it does not
align exactly under the text column). -/
theorem c6_amended (item : TodoItem) (aw : Nat) (sel : Bool)
    (et : List Char) (ec : Nat) (ed : Bool) (res : List (List Char × Bool))
    (h : wrap_todo_item_text item aw sel et ec ed = some res)
    (hlen : 1 < res.length) :
    (∃ c0, res.head? = some (itemLineHead item ++ c0, true)) ∧
    (∀ i, 0 < i → ∀ line tag, res.get? i = some (line, tag) →
      tag = false ∧
      ∃ chunk, line = (itemIndentChars item ++ ("   ").data) ++ chunk) := by
  unfold wrap_todo_item_text at h
  dsimp only at h
  revert h
  generalize (if ed && sel then insertCharAt et ec CURSOR else item.text) = textv
  intro h
  unfold wrapAfterText at h
  dsimp only at h
  split_ifs at h with h1 h2
  · obtain rfl := Option.some_inj.mp h
    simp at hlen
  · obtain rfl := Option.some_inj.mp h
    simp at hlen
  · cases hw : wrapWords (aw - utf8Len (itemLineHead item))
      (rustSplitWhitespace textv) [] [] with
    | none => rw [hw] at h; exact absurd h (by simp)
    | some pr =>
      obtain ⟨lines, current⟩ := pr
      rw [hw] at h
      dsimp only at h
      split_ifs at h with hc he he2
      · obtain rfl := Option.some_inj.mp h
        simp at hlen
      · obtain rfl := Option.some_inj.mp h
        exact assemble_props _ _ _ (by simpa using he)
      · simp at he2
      · obtain rfl := Option.some_inj.mp h
        exact assemble_props _ _ _ (by simp)

/-- C6 counterexample: for the two-word item the wrapper yields two lines;
the continuation line starts with three spaces while the prefix width is
six, so the continuation indent does not equal the prefix width. -/
theorem c6_counterexample :
    wrap_todo_item_text itemAB 10 false [] 0 false =
      some [(("* [ ] aaaa").data, true), (("   bbbb").data, false)] ∧
    utf8Len (itemLineHead itemAB) = 6 ∧
    (("   bbbb").data.takeWhile (fun c => c = ' ')).length = 3 ∧
    listStartsWith (("   bbbb").data) (List.replicate 6 ' ') = false := by
  refine ⟨by decide, by decide, by decide, by decide⟩

/-- C6 witness for the amended statement. -/
theorem c6_witness :
    (∃ c0, ([(("* [ ] aaaa").data, true), (("   bbbb").data, false)]).head? =
      some (itemLineHead itemAB ++ c0, true)) ∧
    (∀ i, 0 < i → ∀ line tag,
      ([(("* [ ] aaaa").data, true), (("   bbbb").data, false)]).get? i =
        some (line, tag) →
      tag = false ∧
      ∃ chunk, line = (itemIndentChars itemAB ++ ("   ").data) ++ chunk) :=
  c6_amended itemAB 10 false [] 0 false
    [(("* [ ] aaaa").data, true), (("   bbbb").data, false)]
    (by decide) (by decide)

/-! ### C7 -/

/-- C7: decoding fails exactly when the first produced line is missing or
is not the TODO marker followed by a date the Y-m-d parser accepts; once
that header line is valid the decode always succeeds, and the item loop
skips (rather than fails on) lines that are all whitespace or that do not
start with a star bullet after trimming. -/
theorem c7_header_gate :
    (∀ content : List Char,
      (TodoList.from_markdown content).isOk = true ↔
        ∃ first rest, rustLines content = first :: rest ∧
          listStartsWith first (("# TODO ").data) = true ∧
          (parseDate (first.drop 7)).isSome = true) ∧
    (∀ line : List Char,
      (rustTrim line).isEmpty = true ∨
        listStartsWith (rustTrimStart line) (("* ").data) = false →
      parseItemLine line = none) := by
  constructor
  · intro content
    unfold TodoList.from_markdown
    cases hl : rustLines content with
    | nil =>
      simp [Except.isOk, Except.toBool]
    | cons first rest =>
      dsimp only
      by_cases hp : listStartsWith first (("# TODO ").data) = true
      · rw [if_neg (by simp), if_neg (by simp [hp])]
        cases hd : parseDate (first.drop 7) with
        | none =>
          simp [Except.isOk, Except.toBool, hp, hd]
        | some dd =>
          simp [Except.isOk, Except.toBool, hp, hd]
      · rw [if_neg (by simp), if_pos (by simp [Bool.not_eq_true] at hp; simp [hp])]
        rw [Bool.not_eq_true] at hp
        simp [Except.isOk, Except.toBool, hp]
  · intro line hcase
    unfold parseItemLine
    by_cases ht : (rustTrim line).isEmpty = true
    · rw [if_pos ht]
    · rcases hcase with hc | hc
      · exact absurd hc ht
      · rw [if_neg ht]
        dsimp only
        rw [if_pos (by simp [hc])]

/-- C7 witness for the skip clause. -/
theorem c7_witness :
    ((rustTrim (("   ").data)).isEmpty = true ∨
      listStartsWith (rustTrimStart (("   ").data)) (("* ").data) = false) ∧
    parseItemLine (("   ").data) = none :=
  ⟨Or.inl (by decide), c7_header_gate.2 (("   ").data) (Or.inl (by decide))⟩

/-! ### C3: decimal digit strings -/

theorem digitsToNat_append_one (xs : List Char) (c : Char) :
    digitsToNat (xs ++ [c]) = 10 * digitsToNat xs + (c.toNat - 48) := by
  simp [digitsToNat, List.foldl_append]

theorem digitChar_val (d : Nat) (h : d < 10) :
    (Nat.digitChar d).toNat - 48 = d := by
  interval_cases d <;> decide

theorem digitChar_isAsciiDigit (d : Nat) (h : d < 10) :
    isAsciiDigit (Nat.digitChar d) = true := by
  interval_cases d <;> decide

theorem digitsToNat_natToCharsAux (fuel : Nat) :
    ∀ n, n ≤ fuel → digitsToNat (natToCharsAux fuel n) = n := by
  induction fuel with
  | zero =>
    intro n h
    unfold natToCharsAux
    simp [digitsToNat]
    omega
  | succ f ih =>
    intro n h
    unfold natToCharsAux
    by_cases hz : n = 0
    · simp [hz, digitsToNat]
    · have hd : n / 10 < n := Nat.div_lt_self (by omega) (by omega)
      rw [if_neg hz, digitsToNat_append_one, ih (n / 10) (by omega),
        digitChar_val _ (Nat.mod_lt _ (by omega))]
      omega

theorem natToCharsAux_digits (fuel : Nat) :
    ∀ n c, c ∈ natToCharsAux fuel n → isAsciiDigit c = true := by
  induction fuel with
  | zero => intro n c hc; simp [natToCharsAux] at hc
  | succ f ih =>
    intro n c hc
    unfold natToCharsAux at hc
    by_cases hz : n = 0
    · simp [hz] at hc
    · rw [if_neg hz] at hc
      rcases List.mem_append.mp hc with hc | hc
      · exact ih _ c hc
      · simp at hc
        subst hc
        exact digitChar_isAsciiDigit _ (Nat.mod_lt _ (by omega))

theorem natToChars_digits (n : Nat) :
    ∀ c ∈ natToChars n, isAsciiDigit c = true := by
  unfold natToChars
  by_cases hz : n = 0
  · rw [if_pos hz]
    intro c hc
    simp at hc
    subst hc
    decide
  · rw [if_neg hz]
    exact natToCharsAux_digits n n

theorem digitsToNat_natToChars (n : Nat) : digitsToNat (natToChars n) = n := by
  unfold natToChars
  by_cases hz : n = 0
  · rw [if_pos hz, hz]; decide
  · rw [if_neg hz]; exact digitsToNat_natToCharsAux n n le_rfl

theorem natToCharsAux_length (fuel : Nat) :
    ∀ n k, n ≤ fuel → n < 10 ^ k → (natToCharsAux fuel n).length ≤ k := by
  induction fuel with
  | zero => intro n k h1 h2; simp [natToCharsAux]
  | succ f ih =>
    intro n k h1 h2
    unfold natToCharsAux
    by_cases hz : n = 0
    · simp [hz]
    · have hk : 1 ≤ k := by
        by_contra hk
        have hk0 : k = 0 := by omega
        subst hk0
        simp at h2
        omega
      have hd : n / 10 < n := Nat.div_lt_self (by omega) (by omega)
      have h10 : n / 10 < 10 ^ (k - 1) := by
        rw [Nat.div_lt_iff_lt_mul (by omega)]
        calc n < 10 ^ k := h2
          _ = 10 ^ (k - 1) * 10 := by
            rw [← Nat.pow_succ]
            congr 1
            omega
      have hrec := ih (n / 10) (k - 1) (by omega) h10
      rw [if_neg hz]
      simp
      omega

theorem natToChars_length_le (n k : Nat) (hk : 1 ≤ k) (h : n < 10 ^ k) :
    (natToChars n).length ≤ k := by
  unfold natToChars
  by_cases hz : n = 0
  · rw [if_pos hz]; simpa using hk
  · rw [if_neg hz]; exact natToCharsAux_length n n k le_rfl h

theorem natToChars_ne_nil (n : Nat) : natToChars n ≠ [] := by
  unfold natToChars
  by_cases hz : n = 0
  · simp [hz]
  · rw [if_neg hz]
    rcases n with _ | m
    · exact absurd rfl hz
    · unfold natToCharsAux
      rw [if_neg hz]
      simp

theorem padNat_digits (w n : Nat) : ∀ c ∈ padNat w n, isAsciiDigit c = true := by
  unfold padNat
  intro c hc
  rcases List.mem_append.mp hc with hc | hc
  · have hc0 := List.eq_of_mem_replicate hc
    subst hc0
    decide
  · exact natToChars_digits n c hc

theorem padNat_length (w n : Nat) (h : (natToChars n).length ≤ w) :
    (padNat w n).length = w := by
  simp [padNat]
  omega

theorem padNat_ne_nil (w n : Nat) : padNat w n ≠ [] := by
  unfold padNat
  intro h
  rw [List.append_eq_nil] at h
  exact natToChars_ne_nil n h.2

theorem foldl_zeros (k : Nat) (a : Nat) (ha : a = 0) :
    (List.replicate k '0').foldl (fun a c => 10 * a + (c.toNat - 48)) a = 0 := by
  induction k generalizing a with
  | zero => simpa using ha
  | succ j ih =>
    rw [List.replicate_succ, List.foldl_cons]
    exact ih _ (by subst ha; decide)

theorem digitsToNat_zeros (k : Nat) (ds : List Char) :
    digitsToNat (List.replicate k '0' ++ ds) = digitsToNat ds := by
  unfold digitsToNat
  rw [List.foldl_append, foldl_zeros k 0 rfl]

theorem digitsToNat_padNat (w n : Nat) : digitsToNat (padNat w n) = n := by
  unfold padNat
  rw [digitsToNat_zeros]
  exact digitsToNat_natToChars n

/-! ### C3: scanners on formatted output -/

theorem asciiDigit_not_ws (c : Char) (h : isAsciiDigit c = true) :
    isRustWhitespace c = false := by
  simp [isAsciiDigit] at h
  simp [isRustWhitespace]
  omega

theorem asciiDigit_ne_chars (c : Char) (h : isAsciiDigit c = true) :
    c ≠ '-' ∧ c ≠ '+' ∧ c ≠ '\n' ∧ c ≠ '\r' ∧ c ≠ '*' := by
  simp [isAsciiDigit] at h
  refine ⟨?_, ?_, ?_, ?_, ?_⟩ <;> (rintro rfl; revert h; decide)

theorem mem_of_head? {α : Type} {l : List α} {a : α} (h : l.head? = some a) :
    a ∈ l := by
  cases l with
  | nil => simp at h
  | cons b tl =>
    rw [List.head?_cons] at h
    injection h with h
    exact h ▸ List.mem_cons_self b tl

theorem mem_of_getLast? {α : Type} {l : List α} {a : α}
    (h : l.getLast? = some a) : a ∈ l := by
  induction l with
  | nil => simp at h
  | cons b tl ih =>
    cases tl with
    | nil =>
      simp at h
      simp [h]
    | cons c tl2 =>
      rw [List.getLast?_cons_cons] at h
      exact List.mem_cons_of_mem b (ih h)

theorem scanDigits_exact (ds : List Char) :
    ∀ (fuel : Nat) (rest : List Char),
    (∀ c ∈ ds, isAsciiDigit c = true) → ds.length ≤ fuel →
    (∀ c, rest.head? = some c → isAsciiDigit c = false) →
    scanDigits fuel (ds ++ rest) = (ds, rest) := by
  induction ds with
  | nil =>
    intro fuel rest hd hf hr
    cases fuel with
    | zero => rfl
    | succ f =>
      cases rest with
      | nil => rfl
      | cons c cs =>
        show scanDigits (f + 1) (c :: cs) = ([], c :: cs)
        unfold scanDigits
        rw [if_neg (by simp [hr c rfl])]
  | cons d tl ih =>
    intro fuel rest hd hf hr
    cases fuel with
    | zero => simp at hf
    | succ f =>
      rw [List.cons_append]
      show scanDigits (f + 1) (d :: (tl ++ rest)) = (d :: tl, rest)
      unfold scanDigits
      rw [if_pos (hd d (by simp))]
      rw [ih f rest (fun c hc => hd c (by simp [hc])) (by simpa using hf) hr]

theorem scanNumber_exact (maxw : Nat) (ds rest : List Char)
    (hne : ds ≠ []) (hd : ∀ c ∈ ds, isAsciiDigit c = true)
    (hlen : ds.length ≤ maxw)
    (hr : ∀ c, rest.head? = some c → isAsciiDigit c = false) :
    scanNumber maxw (ds ++ rest) = some (digitsToNat ds, rest) := by
  unfold scanNumber
  rw [scanDigits_exact ds maxw rest hd hlen hr]
  dsimp only
  rw [if_neg (by simpa using hne)]

theorem scanYear_cons (c : Char) (cs : List Char) :
    scanYear (c :: cs) =
      (if c = '-' then
        (scanNumber cs.length cs).map fun p => (-(p.1 : Int), p.2)
      else if c = '+' then
        (scanNumber cs.length cs).map fun p => ((p.1 : Int), p.2)
      else (scanNumber 4 (c :: cs)).map fun p => ((p.1 : Int), p.2)) := rfl

theorem scanYear_digits (ds rest : List Char) (hne : ds ≠ [])
    (hd : ∀ c ∈ ds, isAsciiDigit c = true) (hlen : ds.length ≤ 4)
    (hr : ∀ c, rest.head? = some c → isAsciiDigit c = false) :
    scanYear (ds ++ rest) = some ((digitsToNat ds : Int), rest) := by
  obtain ⟨d, tl, rfl⟩ := List.exists_cons_of_ne_nil hne
  have hd0 := hd d (by simp)
  have hne2 := asciiDigit_ne_chars d hd0
  rw [List.cons_append, scanYear_cons, if_neg hne2.1, if_neg hne2.2.1,
    ← List.cons_append,
    scanNumber_exact 4 (d :: tl) rest (by simp) hd hlen hr]
  rfl

theorem scanYear_plus (ds rest : List Char) (hne : ds ≠ [])
    (hd : ∀ c ∈ ds, isAsciiDigit c = true)
    (hr : ∀ c, rest.head? = some c → isAsciiDigit c = false) :
    scanYear (('+' :: ds) ++ rest) = some ((digitsToNat ds : Int), rest) := by
  rw [List.cons_append, scanYear_cons, if_neg (by decide), if_pos rfl,
    scanNumber_exact (ds ++ rest).length ds rest hne hd (by simp) hr]
  rfl

theorem scanYear_minus (ds rest : List Char) (hne : ds ≠ [])
    (hd : ∀ c ∈ ds, isAsciiDigit c = true)
    (hr : ∀ c, rest.head? = some c → isAsciiDigit c = false) :
    scanYear (('-' :: ds) ++ rest) = some (-(digitsToNat ds : Int), rest) := by
  rw [List.cons_append, scanYear_cons, if_pos rfl,
    scanNumber_exact (ds ++ rest).length ds rest hne hd (by simp) hr]
  rfl

theorem parse_formatYear (y : Int) (rest : List Char)
    (h1 : -262144 ≤ y) (h2 : y ≤ 262143)
    (hr : ∀ c, rest.head? = some c → isAsciiDigit c = false) :
    scanYear (formatYear y ++ rest) = some (y, rest) := by
  unfold formatYear
  split_ifs with ha hb
  · rw [scanYear_digits (padNat 4 y.toNat) rest (padNat_ne_nil _ _)
      (padNat_digits _ _)
      (le_of_eq (padNat_length 4 y.toNat
        (natToChars_length_le y.toNat 4 (by omega)
          (by norm_num; omega)))) hr]
    rw [digitsToNat_padNat]
    congr 2
    exact Int.toNat_of_nonneg ha.1
  · rw [scanYear_plus (natToChars y.toNat) rest (natToChars_ne_nil _)
      (natToChars_digits _) hr]
    rw [digitsToNat_natToChars]
    congr 2
    exact Int.toNat_of_nonneg hb
  · rw [scanYear_minus (padNat 4 (-y).toNat) rest (padNat_ne_nil _ _)
      (padNat_digits _ _) hr]
    rw [digitsToNat_padNat]
    congr 2
    rw [Int.toNat_of_nonneg (by omega)]
    omega

/-! ### C3: the date round-trips through its own format -/

theorem formatYear_ne_nil (y : Int) : formatYear y ≠ [] := by
  unfold formatYear
  split_ifs
  · exact padNat_ne_nil _ _
  · simp
  · simp

theorem formatYear_chars (y : Int) :
    ∀ c ∈ formatYear y, isAsciiDigit c = true ∨ c = '-' ∨ c = '+' := by
  unfold formatYear
  split_ifs
  · intro c hc
    exact Or.inl (padNat_digits _ _ c hc)
  · intro c hc
    rcases List.mem_cons.mp hc with rfl | hc
    · exact Or.inr (Or.inr rfl)
    · exact Or.inl (natToChars_digits _ c hc)
  · intro c hc
    rcases List.mem_cons.mp hc with rfl | hc
    · exact Or.inr (Or.inl rfl)
    · exact Or.inl (padNat_digits _ _ c hc)

theorem not_ws_of_formatYear_mem (y : Int) (c : Char) (h : c ∈ formatYear y) :
    isRustWhitespace c = false := by
  rcases formatYear_chars y c h with h1 | h1 | h1
  · exact asciiDigit_not_ws c h1
  · subst h1; decide
  · subst h1; decide

theorem dropWhile_formatYear (y : Int) (rest : List Char) :
    (formatYear y ++ rest).dropWhile isRustWhitespace = formatYear y ++ rest := by
  obtain ⟨a, tl, he⟩ := List.exists_cons_of_ne_nil (formatYear_ne_nil y)
  rw [he, List.cons_append, List.dropWhile_cons,
    if_neg (by simp [not_ws_of_formatYear_mem y a
      (he.symm ▸ List.mem_cons_self a tl)])]

theorem dropWhile_padNat (w n : Nat) (rest : List Char) :
    (padNat w n ++ rest).dropWhile isRustWhitespace = padNat w n ++ rest := by
  obtain ⟨a, tl, he⟩ := List.exists_cons_of_ne_nil (padNat_ne_nil w n)
  rw [he, List.cons_append, List.dropWhile_cons,
    if_neg (by simp [asciiDigit_not_ws a
      (padNat_digits w n a (he.symm ▸ List.mem_cons_self a tl))])]

theorem dropWhile_padNat_bare (w n : Nat) :
    (padNat w n).dropWhile isRustWhitespace = padNat w n := by
  have h := dropWhile_padNat w n []
  simpa using h

theorem hr_cons_dash (X : List Char) :
    ∀ c, (('-' :: X).head? = some c) → isAsciiDigit c = false := by
  intro c hc
  rw [List.head?_cons] at hc
  injection hc with hc
  subst hc
  decide

theorem hr_nil :
    ∀ c : Char, (([] : List Char).head? = some c) → isAsciiDigit c = false := by
  intro c hc
  simp at hc

theorem parseDate_formatDate (d : NaiveDate) (hv : d.validDate) :
    parseDate (formatDate d) = some d := by
  obtain ⟨hy1, hy2, hm1, hm2, hd1, hd2⟩ := hv
  have hdm : d.day < 100 := by
    have h31 : daysInMonth d.year d.month ≤ 31 := by
      unfold daysInMonth
      split_ifs <;> omega
    omega
  have hlen2 : (padNat 2 d.month).length ≤ 2 :=
    le_of_eq (padNat_length 2 d.month
      (natToChars_length_le d.month 2 (by omega) (by norm_num; omega)))
  have hlen3 : (padNat 2 d.day).length ≤ 2 :=
    le_of_eq (padNat_length 2 d.day
      (natToChars_length_le d.day 2 (by omega) (by norm_num; omega)))
  unfold parseDate formatDate
  rw [List.append_assoc, List.cons_append, dropWhile_formatYear,
    parse_formatYear d.year _ hy1 hy2 (hr_cons_dash _)]
  dsimp only
  rw [if_pos rfl, dropWhile_padNat,
    scanNumber_exact 2 (padNat 2 d.month) ('-' :: padNat 2 d.day)
      (padNat_ne_nil _ _) (padNat_digits _ _) hlen2 (hr_cons_dash _),
    digitsToNat_padNat]
  dsimp only
  have hday := scanNumber_exact 2 (padNat 2 d.day) [] (padNat_ne_nil _ _)
    (padNat_digits _ _) hlen3 hr_nil
  rw [List.append_nil] at hday
  rw [if_pos rfl, dropWhile_padNat_bare, hday, digitsToNat_padNat]
  dsimp only
  rw [if_pos ⟨rfl, hy1, hy2, hm1, hm2, hd1, hd2⟩]

/-! ### C3: splitting the encoded document into lines -/

theorem splitOnNl_append (a b : List Char) (h : '\n' ∉ a) :
    splitOnNl (a ++ '\n' :: b) = a :: splitOnNl b := by
  induction a with
  | nil =>
    show splitOnNl ('\n' :: b) = [] :: splitOnNl b
    rw [splitOnNl, if_pos rfl]
  | cons c cs ih =>
    have hc : c ≠ '\n' := fun hh => h (by simp [hh])
    rw [List.cons_append]
    show splitOnNl (c :: (cs ++ '\n' :: b)) = _
    rw [splitOnNl, if_neg hc, ih (fun hh => h (by simp [hh]))]

theorem splitOnNl_body (ls : List (List Char)) (h : ∀ l ∈ ls, '\n' ∉ l) :
    splitOnNl ((ls.map fun l => l ++ ['\n']).flatten) = ls ++ [[]] := by
  induction ls with
  | nil => rfl
  | cons l tl ih =>
    rw [List.map_cons, List.flatten_cons, List.append_assoc,
      List.singleton_append,
      splitOnNl_append l _ (h l (by simp)),
      ih (fun x hx => h x (by simp [hx]))]
    rfl

theorem getLast?_append_right {α : Type} (a b : List α) (hb : b ≠ []) :
    (a ++ b).getLast? = b.getLast? := by
  induction a with
  | nil => rfl
  | cons x tl ih =>
    rw [List.cons_append]
    obtain ⟨y, ys, hy⟩ := List.exists_cons_of_ne_nil
      (fun hcontra => hb (List.append_eq_nil.mp hcontra).2 : tl ++ b ≠ [])
    rw [hy, List.getLast?_cons_cons, ← hy, ih]

theorem stripCr_nil : stripCr [] = [] := rfl

theorem map_stripCr_id (ls : List (List Char)) (h : ∀ l ∈ ls, stripCr l = l) :
    ls.map stripCr = ls := by
  induction ls with
  | nil => rfl
  | cons l tl ih =>
    rw [List.map_cons, h l (by simp), ih (fun x hx => h x (by simp [hx]))]

theorem rustLines_encode (hdr : List Char) (ls : List (List Char))
    (hh : '\n' ∉ hdr) (hl : ∀ l ∈ ls, '\n' ∉ l)
    (hcrh : stripCr hdr = hdr) (hcr : ∀ l ∈ ls, stripCr l = l) :
    rustLines (hdr ++ '\n' :: '\n' :: (ls.map fun l => l ++ ['\n']).flatten) =
      hdr :: [] :: ls := by
  unfold rustLines
  rw [splitOnNl_append hdr _ hh]
  have h2 : splitOnNl ('\n' :: (ls.map fun l => l ++ ['\n']).flatten) =
      [] :: (ls ++ [[]]) := by
    unfold splitOnNl
    rw [if_pos rfl, splitOnNl_body ls hl]
  rw [h2]
  have h3 : hdr :: [] :: (ls ++ [[]]) = (hdr :: [] :: ls) ++ [[]] := by simp
  rw [h3]
  dsimp only
  rw [getLast?_append_right _ _ (by simp : ([[]] : List (List Char)) ≠ [])]
  simp only [List.getLast?_singleton, Option.getD_some, List.isEmpty_nil]
  rw [if_pos trivial, List.dropLast_concat,
    List.map_cons, List.map_cons, hcrh, stripCr_nil, map_stripCr_id ls hcr]

/-! ### C3: one encoded item line decodes to the same item -/

theorem utf8Len_append (a b : List Char) :
    utf8Len (a ++ b) = utf8Len a + utf8Len b := by
  simp [utf8Len]

theorem utf8Len_indent (k : Nat) :
    utf8Len (listRepeat (("  ").data) k) = 2 * k := by
  induction k with
  | zero => rfl
  | succ j ih =>
    have h2 : utf8Len (("  ").data) = 2 := by decide
    show utf8Len (("  ").data ++ listRepeat (("  ").data) j) = _
    rw [utf8Len_append, ih, h2]
    omega

theorem dropWhile_ws_indent (k : Nat) (rest : List Char) :
    (listRepeat (("  ").data) k ++ rest).dropWhile isRustWhitespace =
      rest.dropWhile isRustWhitespace := by
  induction k with
  | zero => rfl
  | succ j ih =>
    show ((("  ").data ++ listRepeat (("  ").data) j) ++ rest).dropWhile
      isRustWhitespace = _
    rw [List.append_assoc]
    show (' ' :: ' ' :: (listRepeat (("  ").data) j ++ rest)).dropWhile
      isRustWhitespace = _
    rw [List.dropWhile_cons, if_pos (by decide), List.dropWhile_cons,
      if_pos (by decide), ih]

theorem dropWhile_ws_star (rest : List Char) :
    ('*' :: rest).dropWhile isRustWhitespace = '*' :: rest := by
  rw [List.dropWhile_cons, if_neg (by decide)]

theorem mem_dropWhile_of_not {α : Type} (p : α → Bool) (l : List α) (a : α)
    (ha : a ∈ l) (hp : p a = false) : a ∈ l.dropWhile p := by
  induction l with
  | nil => simp at ha
  | cons b tl ih =>
    rw [List.dropWhile_cons]
    by_cases hb : p b = true
    · rw [if_pos hb]
      rcases List.mem_cons.mp ha with rfl | ha2
      · exact absurd hb (by simp [hp])
      · exact ih ha2
    · rw [if_neg hb]
      exact ha

theorem isEmpty_false_of_mem {α : Type} {l : List α} {a : α} (h : a ∈ l) :
    l.isEmpty = false := by
  cases l with
  | nil => simp at h
  | cons b tl => rfl

theorem rustTrim_star (l : List Char) (hmem : '*' ∈ rustTrimStart l) :
    (rustTrim l).isEmpty = false := by
  unfold rustTrim
  unfold rustTrimStart at hmem
  apply isEmpty_false_of_mem (a := '*')
  rw [List.mem_reverse]
  exact mem_dropWhile_of_not _ _ _ (List.mem_reverse.mpr hmem) (by decide)

theorem listStartsWith_nil (l : List Char) : listStartsWith l [] = true := by
  cases l <;> rfl

theorem listStartsWith_append (p r : List Char) :
    listStartsWith (p ++ r) p = true := by
  induction p with
  | nil => exact listStartsWith_nil r
  | cons c cs ih =>
    rw [List.cons_append]
    show listStartsWith (c :: (cs ++ r)) (c :: cs) = true
    unfold listStartsWith
    rw [if_pos rfl]
    exact ih

theorem parseItemLine_star (k : Nat) (X : List Char) :
    parseItemLine (listRepeat (("  ").data) k ++ ('*' :: ' ' :: X)) =
      (if listStartsWith X (("[x] ").data) = true then
        some ⟨X.drop 4, true, k⟩
      else if listStartsWith X (("[ ] ").data) = true then
        some ⟨X.drop 4, false, k⟩
      else some ⟨X, false, k⟩) := by
  have htrim : rustTrimStart
      (listRepeat (("  ").data) k ++ ('*' :: ' ' :: X)) = '*' :: ' ' :: X := by
    unfold rustTrimStart
    rw [dropWhile_ws_indent]
    exact dropWhile_ws_star _
  have hmem : '*' ∈ rustTrimStart
      (listRepeat (("  ").data) k ++ ('*' :: ' ' :: X)) := by
    rw [htrim]; simp
  have htr := rustTrim_star _ hmem
  unfold parseItemLine
  rw [if_neg (by simp [htr])]
  dsimp only
  rw [htrim]
  have hsw : listStartsWith ('*' :: ' ' :: X) (("* ").data) = true :=
    listStartsWith_append (("* ").data) X
  rw [if_neg (by simp [hsw])]
  have hind : (utf8Len (listRepeat (("  ").data) k ++ ('*' :: ' ' :: X)) -
      utf8Len ('*' :: ' ' :: X)) / 2 = k := by
    rw [utf8Len_append, utf8Len_indent]
    omega
  rw [hind]
  rfl

theorem listStartsWith_cons_eq (c : Char) (cs ps : List Char) :
    listStartsWith (c :: cs) (c :: ps) = listStartsWith cs ps := by
  show (if c = c then listStartsWith cs ps else false) = listStartsWith cs ps
  rw [if_pos rfl]

theorem listStartsWith_cons_ne (c p : Char) (cs ps : List Char) (h : c ≠ p) :
    listStartsWith (c :: cs) (p :: ps) = false := by
  show (if c = p then listStartsWith cs ps else false) = false
  rw [if_neg h]

theorem parseItemLine_encode (it : TodoItem) :
    parseItemLine it.to_markdown_line = some it := by
  cases hc : it.completed with
  | true =>
    have hline : it.to_markdown_line =
        listRepeat (("  ").data) it.indent_level ++
          ('*' :: ' ' :: ((("[x] ").data) ++ it.text)) := by
      simp [TodoItem.to_markdown_line, hc, List.append_assoc]
      try rfl
    have hdrop : ((("[x] ").data ++ it.text).drop 4) = it.text := by
      have h4 : (("[x] ").data).length = 4 := rfl
      rw [← h4]
      exact List.drop_left _ _
    rw [hline, parseItemLine_star, if_pos (listStartsWith_append _ _),
      hdrop, ← hc]
  | false =>
    have hline : it.to_markdown_line =
        listRepeat (("  ").data) it.indent_level ++
          ('*' :: ' ' :: ((("[ ] ").data) ++ it.text)) := by
      simp [TodoItem.to_markdown_line, hc, List.append_assoc]
      try rfl
    have hfx : listStartsWith ('[' :: ' ' :: ']' :: ' ' :: it.text)
        (['[', 'x', ']', ' ']) = false := by
      rw [listStartsWith_cons_eq, listStartsWith_cons_ne _ _ _ _ (by decide)]
    have hdrop : ((("[ ] ").data ++ it.text).drop 4) = it.text := by
      have h4 : (("[ ] ").data).length = 4 := rfl
      rw [← h4]
      exact List.drop_left _ _
    rw [hline, parseItemLine_star, if_neg (by simp [hfx]),
      if_pos (listStartsWith_append _ _), hdrop, ← hc]

theorem parseItems_encode (its : List TodoItem) :
    parseItems (its.map TodoItem.to_markdown_line) = its := by
  induction its with
  | nil => rfl
  | cons it tl ih =>
    rw [List.map_cons]
    show parseItems (it.to_markdown_line :: tl.map TodoItem.to_markdown_line)
      = it :: tl
    rw [parseItems, parseItemLine_encode it, ih]

/-! ### C3: the encoded lines carry no newline and no trailing return -/

theorem mem_listRepeat {c : Char} {l : List Char} {k : Nat}
    (h : c ∈ listRepeat l k) : c ∈ l := by
  induction k with
  | zero => simp [listRepeat] at h
  | succ j ih =>
    rw [listRepeat] at h
    rcases List.mem_append.mp h with h | h
    · exact h
    · exact ih h

theorem to_markdown_line_no_nl (it : TodoItem) (h : '\n' ∉ it.text) :
    '\n' ∉ it.to_markdown_line := by
  intro hmem
  simp only [TodoItem.to_markdown_line, List.mem_append] at hmem
  rcases hmem with (((hi | hs) | hcb) | hsp) | ht
  · exact absurd (mem_listRepeat hi) (by decide)
  · exact absurd hs (by decide)
  · revert hcb
    cases it.completed <;> decide
  · exact absurd hsp (by decide)
  · exact h ht

theorem to_markdown_line_stripCr (it : TodoItem)
    (h : it.text.getLast? ≠ some '\r') :
    stripCr it.to_markdown_line = it.to_markdown_line := by
  unfold stripCr
  rw [if_neg]
  intro hlast
  unfold TodoItem.to_markdown_line at hlast
  cases htext : it.text with
  | nil =>
    rw [htext, List.append_nil] at hlast
    rw [getLast?_append_right _ _ (by decide : ((" ").data : List Char) ≠ [])]
      at hlast
    exact absurd hlast (by decide)
  | cons c cs =>
    rw [htext] at hlast h
    rw [getLast?_append_right _ _ (by simp : c :: cs ≠ [])] at hlast
    exact h hlast

theorem formatDate_chars (d : NaiveDate) :
    ∀ c ∈ formatDate d, isAsciiDigit c = true ∨ c = '-' ∨ c = '+' := by
  intro c hc
  unfold formatDate at hc
  simp only [List.mem_append, List.mem_cons] at hc
  rcases hc with (hy | (hd1 | hm)) | (hd2 | hd)
  · exact formatYear_chars d.year c hy
  · exact Or.inr (Or.inl hd1)
  · exact Or.inl (padNat_digits _ _ c hm)
  · exact Or.inr (Or.inl hd2)
  · exact Or.inl (padNat_digits _ _ c hd)

theorem formatDate_ne_nil (d : NaiveDate) : formatDate d ≠ [] := by
  unfold formatDate
  intro h
  simp [List.append_eq_nil] at h

theorem header_no_nl (d : NaiveDate) :
    '\n' ∉ ("# TODO ").data ++ formatDate d := by
  intro h
  rcases List.mem_append.mp h with h | h
  · exact absurd h (by decide)
  · rcases formatDate_chars d '\n' h with h1 | h1 | h1 <;>
      exact absurd h1 (by decide)

theorem header_stripCr (d : NaiveDate) :
    stripCr (("# TODO ").data ++ formatDate d) =
      ("# TODO ").data ++ formatDate d := by
  unfold stripCr
  rw [if_neg]
  intro hlast
  rw [getLast?_append_right _ _ (formatDate_ne_nil d)] at hlast
  rcases formatDate_chars d '\r' (mem_of_getLast? hlast) with h1 | h1 | h1 <;>
    exact absurd h1 (by decide)

/-! ### C3: the claim -/

/-- C3. Corrected round-trip: the spec states `decode(encode(list)) == list`
whenever no item text contains a newline; the code additionally destroys a
trailing carriage return of the last-encoded text (str::lines strips a '\r'
that ends up just before the '\n' written by the encoder), so the theorem
adds that no item text ends in '\r', and requires the list date to be a
valid calendar date (chrono would already have refused to construct an
invalid one). Under those hypotheses from_markdown inverts to_markdown
exactly. -/
theorem c3_amended (l : TodoList) (hdv : l.date.validDate)
    (hni : ∀ it ∈ l.items, '\n' ∉ it.text ∧ it.text.getLast? ≠ some '\r') :
    TodoList.from_markdown (TodoList.to_markdown l) = Except.ok l := by
  have hl : ∀ li ∈ l.items.map TodoItem.to_markdown_line, '\n' ∉ li := by
    intro li hli
    obtain ⟨it, hit, rfl⟩ := List.mem_map.mp hli
    exact to_markdown_line_no_nl it (hni it hit).1
  have hcr : ∀ li ∈ l.items.map TodoItem.to_markdown_line,
      stripCr li = li := by
    intro li hli
    obtain ⟨it, hit, rfl⟩ := List.mem_map.mp hli
    exact to_markdown_line_stripCr it (hni it hit).2
  have h1 : TodoList.to_markdown l =
      (("# TODO ").data ++ formatDate l.date) ++ '\n' :: '\n' ::
        ((l.items.map TodoItem.to_markdown_line).map
          fun li => li ++ ['\n']).flatten := by
    unfold TodoList.to_markdown
    rw [List.map_map]
    simp [List.append_assoc, Function.comp]
    try rfl
  have hlines : rustLines (TodoList.to_markdown l) =
      (("# TODO ").data ++ formatDate l.date) :: [] ::
        l.items.map TodoItem.to_markdown_line := by
    rw [h1]
    exact rustLines_encode _ _ (header_no_nl l.date) hl
      (header_stripCr l.date) hcr
  have hsw2 : listStartsWith
      ('#' :: ' ' :: 'T' :: 'O' :: 'D' :: 'O' :: ' ' :: formatDate l.date)
      (['#', ' ', 'T', 'O', 'D', 'O', ' ']) = true :=
    listStartsWith_append (("# TODO ").data) (formatDate l.date)
  have hdrop7 : List.drop 7
      ((['#', ' ', 'T', 'O', 'D', 'O', ' '] : List Char) ++
        formatDate l.date) = formatDate l.date := by
    have h7 := List.drop_left
      (['#', ' ', 'T', 'O', 'D', 'O', ' '] : List Char) (formatDate l.date)
    simpa using h7
  unfold TodoList.from_markdown
  rw [hlines]
  dsimp only
  rw [if_neg (by simp), if_neg (by simp [hsw2])]
  simp only [List.headD_cons]
  rw [hdrop7, parseDate_formatDate l.date hdv]
  dsimp only
  show (Except.ok ⟨l.date, parseItems (l.items.map TodoItem.to_markdown_line)⟩
    : Except String TodoList) = Except.ok l
  rw [parseItems_encode]

/-- C3. Counterexample to the claim as stated: the one-item list whose text
is a single carriage return contains no newline, yet it does not survive the
round trip - the encoder writes the text followed by a newline, and the
decoder's line splitter removes the carriage return that now precedes that
newline, so the text decodes as empty. -/
theorem c3_counterexample :
    (∀ it ∈ listCr.items, '\n' ∉ it.text) ∧
      (TodoList.from_markdown (TodoList.to_markdown listCr)).toOption ≠
        some listCr := by
  decide

/-- C3. Witness: a concrete two-item list with a valid date, no newline and
no trailing carriage return in any text, round-trips exactly. -/
theorem c3_witness :
    TodoList.from_markdown (TodoList.to_markdown
      ⟨⟨2025, 8, 14⟩, [⟨("Buy milk").data, false, 0⟩,
        ⟨("Call Bob").data, true, 1⟩]⟩) =
      Except.ok ⟨⟨2025, 8, 14⟩, [⟨("Buy milk").data, false, 0⟩,
        ⟨("Call Bob").data, true, 1⟩]⟩ :=
  c3_amended _ (by decide) (by decide)
